import Mathlib

/-!
# Verification of the atomspace type registry (ClassServer) and its guile binding

This development is a shallow embedding of `opencog/atoms/base/ClassServer.cc`
and the type-query part of `opencog/guile/SchemeSmobAtom.cc`.

Modelling conventions:

* `Type` (a dense integer code, an unsigned short in the binding layer) is
  modelled as `Nat`.  Modelled from the spec: the header `atom_types.h`
  defining the sentinel `NOTYPE` is not part of the sampled sources; the spec
  says `NOTYPE` "denotes no such type and must never be assigned to a real
  type", so the name-to-code lookup is modelled as returning `Option Nat`,
  with `none` playing the role of the `NOTYPE` sentinel.
* `std::vector<std::vector<bool>>` matrices are `List (List Bool)`.
  `operator[]` out of range is undefined behaviour in C++, so every matrix
  access goes through a bounds-checked accessor returning
  `Except AccessErr _`, and an out-of-range access is the `.oob` error.
* `setParentRecursively` is general recursion in C++ (it need not terminate
  on cyclic inputs), so it is embedded with an explicit fuel parameter;
  running out of fuel is the distinct `.fuel` error, hence "the C++ call
  terminates with a given recursion depth" is "`.ok` for that fuel", and
  "the call never terminates" is "`.error .fuel` for every fuel".
* The mutation mutex and signal emission order are sequentialised: `addType`
  returns, besides the new state and the returned code, the list of "type
  added" notifications it emits, which are computed after every table and
  matrix update has been applied (the C++ code emits them after releasing
  the lock).
* The autogenerated registrations of the `ClassServer` constructor
  (`atom_types.inheritance`) are not in the sampled sources; they are just a
  particular sequence of `addType` calls, so reachable registry states are
  modelled as `runSeq`: any sequence of `addType` calls from the empty state.
-/

/-- Errors of the checked interpreter: an out-of-bounds `std::vector` access
(undefined behaviour in the C++ source), or fuel exhaustion of the embedded
unbounded recursion. -/
inductive AccessErr where
  | oob
  | fuel
deriving DecidableEq

/-- A boolean matrix, as the C++ `std::vector<std::vector<bool>>`. -/
abbrev BMat := List (List Bool)

/-- Total read of a matrix cell; out-of-range reads default to `false`.
Used to state properties; the interpreter itself uses the checked `mget`. -/
def entryB (m : BMat) (i j : Nat) : Bool :=
  ((m.get? i).bind (fun row => row.get? j)).getD false

/-- Checked read `m[i][j]` (row `i`, column `j`). -/
def mget (m : BMat) (i j : Nat) : Except AccessErr Bool :=
  match m.get? i with
  | none => .error .oob
  | some row =>
    match row.get? j with
    | none => .error .oob
    | some b => .ok b

/-- Checked write `m[i][j] = v`. -/
def mset (m : BMat) (i j : Nat) (v : Bool) : Except AccessErr BMat :=
  match m.get? i with
  | none => .error .oob
  | some row =>
    if j < row.length then .ok (m.set i (row.set j v)) else .error .oob

/-- `resize` of the outer vector to `n` rows followed by `resize(n, false)` of
every row, as done by `ClassServer::addType` via `std::for_each`.  C++
`resize` truncates when shrinking and pads with default values when growing:
new rows are empty vectors, then every row is padded with `false` up to `n`. -/
def resizeMat (m : BMat) (n : Nat) : BMat :=
  (m.take n ++ List.replicate (n - m.length) []).map
    (fun (row : List Bool) => row.take n ++ List.replicate (n - row.length) false)

/-- The registry state owned by `ClassServer`: the type counter, the
direct-inheritance and recursive (ancestor) matrices, and the two name maps.
`name2CodeMap` is an `unordered_map<string, Type>` (keys unique),
`code2NameMap` an `unordered_map<Type, const string*>`; both are modelled as
association lists, inserted at the head. -/
structure ClassServerState where
  nTypes : Nat
  inheritanceMap : BMat
  recursiveMap : BMat
  name2CodeMap : List (String × Nat)
  code2NameMap : List (Nat × String)
deriving DecidableEq

/-- Association lookup for `name2CodeMap`. -/
def alookup : List (String × Nat) → String → Option Nat
  | [], _ => none
  | (k, v) :: rest, key => if k = key then some v else alookup rest key

/-- Association lookup for `code2NameMap`. -/
def clookup : List (Nat × String) → Nat → Option String
  | [], _ => none
  | (k, v) :: rest, key => if k = key then some v else clookup rest key

/-- `ClassServer::getType`: name-to-code lookup; `none` is the `NOTYPE`
sentinel returned by the C++ code for an unregistered name. -/
def getType (s : ClassServerState) (typeName : String) : Option Nat :=
  alookup s.name2CodeMap typeName

/-- The sentinel string `ClassServer::getTypeName` returns for a code with no
bound name (`nullString` in the source). -/
def unknownTypeName : String := "*** Unknown Type! ***"

/-- `ClassServer::getTypeName`: code-to-name lookup, total, returning the
sentinel string when the code is not bound. -/
def getTypeName (s : ClassServerState) (t : Nat) : String :=
  match clookup s.code2NameMap t with
  | some nm => nm
  | none => unknownTypeName

/-- `ClassServer::getNumberOfClasses`. -/
def getNumberOfClasses (s : ClassServerState) : Nat :=
  s.nTypes

/-- `ClassServer::isDefined`. -/
def isDefined (s : ClassServerState) (typeName : String) : Bool :=
  (alookup s.name2CodeMap typeName).isSome

/-- `ClassServer::isA_non_recursive`: explicitly bounds-checked in the
source (`if ((type >= nTypes) || (parent >= nTypes)) return false;`), then
reads `inheritanceMap[parent][type]`. -/
def isA_non_recursive (s : ClassServerState) (type_ parent : Nat) : Bool :=
  if s.nTypes ≤ type_ || s.nTypes ≤ parent then false
  else entryB s.inheritanceMap parent type_

/-- `isA(child, parent)` — the declaration lives in the missing header, but
the claims identify it with the `recursiveMap` entry maintained by
`setParentRecursively`: `recursiveMap[parent][child]` records that `parent`
is a (reflexive-transitive) ancestor of `child`. -/
def isA (s : ClassServerState) (child parent : Nat) : Bool :=
  entryB s.recursiveMap parent child

/-- The inner `for (Type i = 0; i < nTypes; ++i)` loop of
`ClassServer::setParentRecursively`: scan the pending indices, and whenever
`recursiveMap[i][parent]` holds and `i != parent`, recurse via `sprF`
(the fuelled recursive call) on the current matrix. -/
def sprIter (sprF : Nat → BMat → Except AccessErr BMat) (parent : Nat) :
    List Nat → BMat → Except AccessErr BMat
  | [], m => .ok m
  | i :: rest, m =>
    match mget m i parent with
    | .error e => .error e
    | .ok b =>
      if b = true ∧ i ≠ parent then
        match sprF i m with
        | .error e => .error e
        | .ok m2 => sprIter sprF parent rest m2
      else
        sprIter sprF parent rest m

/-- `ClassServer::setParentRecursively(parent, type)`:
sets `recursiveMap[parent][type] = true`, then for every `i < nTypes` with
`recursiveMap[i][parent] && i != parent` recurses as `(i, type)`.  The C++
recursion is unbounded; `fuel` bounds the recursion depth, `.error .fuel`
meaning the depth was exceeded. -/
def setParentRecursively : Nat → Nat → Nat → Nat → BMat → Except AccessErr BMat
  | 0, _, _, _, _ => .error .fuel
  | Nat.succ f, n, parent, type_, m =>
    match mset m parent type_ true with
    | .error e => .error e
    | .ok m1 =>
      sprIter (fun i acc => setParentRecursively f n i type_ acc) parent
        (List.range n) m1

/-- `ClassServer::addType(parent, name)`.  Returns the new state, the
returned type code, and the list of "type added" signals emitted (computed
after all table/matrix updates, emitted after the lock is released).

If the name is already live (`getType` hit): record the extra direct edge,
re-run closure propagation, return the existing code, and emit nothing (the
source returns before reaching `_addTypeSignal`).  Otherwise: allocate the
next code, grow both matrices, set the reflexive and direct entries,
propagate, bind the name, and emit one signal carrying the new code. -/
def addType (fuel : Nat) (s : ClassServerState) (parent : Nat) (name : String) :
    Except AccessErr (ClassServerState × Nat × List Nat) :=
  match getType s name with
  | some type_ =>
    match mset s.inheritanceMap parent type_ true with
    | .error e => .error e
    | .ok ih =>
      match setParentRecursively fuel s.nTypes parent type_ s.recursiveMap with
      | .error e => .error e
      | .ok rm =>
        .ok ({ s with inheritanceMap := ih, recursiveMap := rm }, type_, [])
  | none =>
    let type_ := s.nTypes
    let n2 := s.nTypes + 1
    let ih0 := resizeMat s.inheritanceMap n2
    let rm0 := resizeMat s.recursiveMap n2
    match mset ih0 type_ type_ true with
    | .error e => .error e
    | .ok ih1 =>
      match mset ih1 parent type_ true with
      | .error e => .error e
      | .ok ih2 =>
        match mset rm0 type_ type_ true with
        | .error e => .error e
        | .ok rm1 =>
          match setParentRecursively fuel n2 parent type_ rm1 with
          | .error e => .error e
          | .ok rm2 =>
            .ok ({ nTypes := n2
                   inheritanceMap := ih2
                   recursiveMap := rm2
                   name2CodeMap := (name, type_) :: s.name2CodeMap
                   code2NameMap := (type_, name) :: s.code2NameMap },
                 type_, [type_])

/-- Unfolding of `addType` in the already-live (multiple-inheritance) branch. -/
theorem addType_live (fuel : Nat) (s : ClassServerState) (parent : Nat)
    (name : String) (t0 : Nat) (hg : getType s name = some t0) :
    addType fuel s parent name =
      match mset s.inheritanceMap parent t0 true with
      | .error e => .error e
      | .ok ih =>
        match setParentRecursively fuel s.nTypes parent t0 s.recursiveMap with
        | .error e => .error e
        | .ok rm =>
          .ok ({ s with inheritanceMap := ih, recursiveMap := rm }, t0, []) := by
  unfold addType
  rw [hg]

/-- Unfolding of `addType` in the fresh-name branch. -/
theorem addType_fresh (fuel : Nat) (s : ClassServerState) (parent : Nat)
    (name : String) (hg : getType s name = none) :
    addType fuel s parent name =
      match mset (resizeMat s.inheritanceMap (s.nTypes + 1)) s.nTypes s.nTypes true with
      | .error e => .error e
      | .ok ih1 =>
        match mset ih1 parent s.nTypes true with
        | .error e => .error e
        | .ok ih2 =>
          match mset (resizeMat s.recursiveMap (s.nTypes + 1)) s.nTypes s.nTypes true with
          | .error e => .error e
          | .ok rm1 =>
            match setParentRecursively fuel (s.nTypes + 1) parent s.nTypes rm1 with
            | .error e => .error e
            | .ok rm2 =>
              .ok ({ nTypes := s.nTypes + 1
                     inheritanceMap := ih2
                     recursiveMap := rm2
                     name2CodeMap := (name, s.nTypes) :: s.name2CodeMap
                     code2NameMap := (s.nTypes, name) :: s.code2NameMap },
                   s.nTypes, [s.nTypes]) := by
  unfold addType
  rw [hg]

/-- The freshly constructed registry before any registration: `nTypes = 0`,
empty matrices and maps (the autogenerated constructor registrations are
themselves `addType` calls, covered by `runSeq`). -/
def emptyState : ClassServerState :=
  { nTypes := 0, inheritanceMap := [], recursiveMap := [],
    name2CodeMap := [], code2NameMap := [] }

/-- Run a sequence of `addType` calls (each a `(parent, name)` pair) from a
given state, with the given recursion-depth budget for each call. -/
def execSeq (fuel : Nat) : List (Nat × String) → ClassServerState →
    Except AccessErr ClassServerState
  | [], s => .ok s
  | (p, nm) :: rest, s =>
    match addType fuel s p nm with
    | .error e => .error e
    | .ok (s2, _, _) => execSeq fuel rest s2

/-- Registry states reachable by a completed sequence of `addType` calls. -/
def runSeq (fuel : Nat) (cmds : List (Nat × String)) :
    Except AccessErr ClassServerState :=
  execSeq fuel cmds emptyState

/-- The state after the single bootstrap call `addType(0, "A")` (the root
type registered with the root-sentinel idiom `parent = 0 = its own code`). -/
def sampleState1 : ClassServerState :=
  { nTypes := 1, inheritanceMap := [[true]], recursiveMap := [[true]],
    name2CodeMap := [("A", 0)], code2NameMap := [(0, "A")] }

example : runSeq 10 [(0, "A")] = .ok sampleState1 := by rfl

/-- The state after `addType(0, "A"); addType(0, "B")`. -/
def sampleState2 : ClassServerState :=
  { nTypes := 2,
    inheritanceMap := [[true, true], [false, true]],
    recursiveMap := [[true, true], [false, true]],
    name2CodeMap := [("B", 1), ("A", 0)],
    code2NameMap := [(1, "B"), (0, "A")] }

example : runSeq 10 [(0, "A"), (0, "B")] = .ok sampleState2 := by rfl

/-- `direct[parent][child]`: `child` was registered with `parent` as an
immediate supertype (an `inheritanceMap` entry). -/
def directParentEdge (s : ClassServerState) (parent child : Nat) : Prop :=
  entryB s.inheritanceMap parent child = true

/-- A directed path of direct edges from `child` up to `parent` (including
the empty path `child = parent`): the reflexive-transitive closure of the
child-to-immediate-parent step. -/
def upPath (s : ClassServerState) (child parent : Nat) : Prop :=
  Relation.ReflTransGen (fun a b => directParentEdge s b a) child parent

/-- The registration sequence A; B under A; C under B; D; then the
multiple-inheritance re-registration of B under D.  Its direct-parent edges
form a DAG and every supplied parent is already registered at the time it is
supplied. -/
def c1Cmds : List (Nat × String) :=
  [(0, "A"), (0, "B"), (1, "C"), (0, "D"), (3, "B")]

/-- The state the interpreter reaches after `c1Cmds`: note
`recursiveMap[3][2] = false` although direct edges 3 → 1 → 2 exist. -/
def c1State : ClassServerState :=
  { nTypes := 4,
    inheritanceMap :=
      [[true, true, false, true],
       [false, true, true, false],
       [false, false, true, false],
       [false, true, false, true]],
    recursiveMap :=
      [[true, true, true, true],
       [false, true, true, false],
       [false, false, true, false],
       [false, true, false, true]],
    name2CodeMap := [("D", 3), ("C", 2), ("B", 1), ("A", 0)],
    code2NameMap := [(3, "D"), (2, "C"), (1, "B"), (0, "A")] }

/-- C1: for every sequence of `addType` calls whose direct-parent edges form
a DAG (every supplied parent already registered), `isA(child, parent)` holds
iff a directed path of direct edges leads from `child` up to `parent`.
This FAILS on the code: after `c1Cmds` (a DAG, all parents pre-registered),
the path C(2) → B(1) → D(3) of direct edges exists, yet
`isA(2, 3) = recursiveMap[3][2]` is `false` — `setParentRecursively` run on
the re-registration of B under D propagates the new edge to the ancestors of
D, but never to the already-existing descendants of B (here C), so the
ancestor relation is strictly smaller than the reflexive-transitive closure
of the direct relation. -/
theorem closure_bug_on_multiple_inheritance :
    runSeq 32 c1Cmds = .ok c1State ∧ upPath c1State 2 3 ∧ isA c1State 2 3 = false := by
  refine ⟨by rfl, ?_, by rfl⟩
  have h21 : directParentEdge c1State 1 2 := by rfl
  have h13 : directParentEdge c1State 3 1 := by rfl
  exact Relation.ReflTransGen.head h21 (Relation.ReflTransGen.single h13)

/-- C2 counterexample: re-registering the live name "A" (the
multiple-inheritance case) returns the existing code 0 but emits NO
"type added" notification — the source returns from the early branch before
reaching `_addTypeSignal` — refuting the claim that every `addType` call
emits exactly one notification. -/
theorem second_registration_emits_no_signal :
    getType sampleState1 "A" = some 0 ∧
    addType 10 sampleState1 0 "A" = .ok (sampleState1, 0, []) := by
  exact ⟨by rfl, by rfl⟩

/-- C2 (amended): the first registration of a name emits exactly one
"type added" notification carrying the returned code, computed after all
matrix/table state is committed; a re-registration of an already-live name
emits none. -/
theorem addType_signal (fuel : Nat) (s : ClassServerState) (parent : Nat)
    (name : String) (s2 : ClassServerState) (t : Nat) (sigs : List Nat)
    (h : addType fuel s parent name = .ok (s2, t, sigs)) :
    (getType s name = none → sigs = [t]) ∧
    (∀ t0, getType s name = some t0 → sigs = []) := by
  cases hg : getType s name with
  | some t0 =>
    rw [addType_live fuel s parent name t0 hg] at h
    constructor
    · intro hc; exact Option.noConfusion hc
    · intro t1 _
      split at h
      · exact Except.noConfusion h
      · split at h
        · exact Except.noConfusion h
        · injection h with h1
          injection h1 with _ h2
          injection h2 with _ h3
          exact h3.symm
  | none =>
    rw [addType_fresh fuel s parent name hg] at h
    constructor
    · intro _
      split at h
      · exact Except.noConfusion h
      · split at h
        · exact Except.noConfusion h
        · split at h
          · exact Except.noConfusion h
          · split at h
            · exact Except.noConfusion h
            · injection h with h1
              injection h1 with _ h2
              injection h2 with h3 h4
              rw [h4.symm, h3]
    · intro t1 hc; exact Option.noConfusion hc

/-- Witness for the amended C2 at a concrete fresh registration. -/
theorem addType_signal_witness :
    addType 10 sampleState1 0 "B" = .ok (sampleState2, 1, [1]) ∧
    ((getType sampleState1 "B" = none → [1] = [1]) ∧
     (∀ t0, getType sampleState1 "B" = some t0 → [1] = [])) := by
  exact ⟨by rfl, addType_signal 10 sampleState1 0 "B" sampleState2 1 [1] (by rfl)⟩

/-- C8: `getNumberOfClasses` is non-decreasing across `addType` (the only
mutating operation — every query in the source is a pure read), increases by
exactly one when the supplied name was not previously registered, and is left
unchanged by a re-registration of a live name under any parent. -/
theorem addType_count (fuel : Nat) (s : ClassServerState) (parent : Nat)
    (name : String) (s2 : ClassServerState) (t : Nat) (sigs : List Nat)
    (h : addType fuel s parent name = .ok (s2, t, sigs)) :
    s.nTypes ≤ s2.nTypes ∧
    (getType s name = none → getNumberOfClasses s2 = getNumberOfClasses s + 1) ∧
    (∀ t0, getType s name = some t0 → getNumberOfClasses s2 = getNumberOfClasses s) := by
  cases hg : getType s name with
  | some t0 =>
    rw [addType_live fuel s parent name t0 hg] at h
    split at h
    · exact Except.noConfusion h
    · split at h
      · exact Except.noConfusion h
      · injection h with h1
        injection h1 with hs _
        refine ⟨?_, fun hc => ?_, fun t1 _ => ?_⟩
        · rw [hs.symm]
        · exact Option.noConfusion hc
        · rw [hs.symm]; rfl
  | none =>
    rw [addType_fresh fuel s parent name hg] at h
    split at h
    · exact Except.noConfusion h
    · split at h
      · exact Except.noConfusion h
      · split at h
        · exact Except.noConfusion h
        · split at h
          · exact Except.noConfusion h
          · injection h with h1
            injection h1 with hs _
            refine ⟨?_, fun _ => ?_, fun t1 hc => ?_⟩
            · rw [hs.symm]; exact Nat.le_succ _
            · rw [hs.symm]; rfl
            · exact Option.noConfusion hc

/-- Witness for C8 at a concrete fresh registration from the empty state. -/
theorem addType_count_witness :
    addType 10 emptyState 0 "A" = .ok (sampleState1, 0, [0]) ∧
    (emptyState.nTypes ≤ sampleState1.nTypes ∧
     (getType emptyState "A" = none →
       getNumberOfClasses sampleState1 = getNumberOfClasses emptyState + 1) ∧
     (∀ t0, getType emptyState "A" = some t0 →
       getNumberOfClasses sampleState1 = getNumberOfClasses emptyState)) := by
  exact ⟨by rfl, addType_count 10 emptyState 0 "A" sampleState1 0 [0] (by rfl)⟩


/-- C5 counterexample: `addType` with an unregistered parent code performs an
out-of-bounds matrix access.  From the empty registry, `addType(5, "X")`
allocates code 0, grows both matrices to 1 x 1, and then executes
`inheritanceMap[5][0] = true` — an out-of-bounds write (the source never
bounds-checks `parent`), refuting the claim that no out-of-bounds access
happens for every input the spec allows. -/
theorem addType_oob_on_unregistered_parent :
    addType 32 emptyState 5 "X" = .error .oob := by rfl

/-- The scheme values `ss_get_type` discriminates between: a symbol, a
string, or anything else (`scm_symbol_p` / `scm_string_p`). -/
inductive ScmVal where
  | sym (s : String)
  | str (s : String)
  | other
deriving DecidableEq

/-- `SchemeSmob::ss_get_type` (`cog-type->int`): a symbol argument is
converted to a string; a non-string argument raises a wrong-type-argument
error; otherwise the name is looked up, and when the lookup yields `NOTYPE`
the error is raised unless the name is exactly `"Notype"` (the `strcmp`
special case), in which case the `NOTYPE` code itself is returned.  The
result is `.ok (some t)` for a live code, `.ok none` for the returned
`NOTYPE` sentinel, and `.error msg` for the raised wrong-type error. -/
def ss_get_type (s : ClassServerState) (v : ScmVal) : Except String (Option Nat) :=
  let v2 := match v with
    | .sym nm => ScmVal.str nm
    | x => x
  match v2 with
  | .str nm =>
    match getType s nm with
    | some t => .ok (some t)
    | none =>
      if nm = "Notype" then .ok none
      else .error "cog-type->int: Wrong type argument in position 1: opencog atom type"
  | _ => .error "cog-type->int: Wrong type argument in position 1: opencog atom type"

/-- Whether an `Except` computation completed without raising. -/
def exceptIsOk {ε α : Type} : Except ε α → Bool
  | .ok _ => true
  | .error _ => false

/-- The name carried by a symbol or string scheme value. -/
def scmName : ScmVal → Option String
  | .sym nm => some nm
  | .str nm => some nm
  | .other => none

/-- C9 counterexample: in a registry where only "A" is registered, the
string "Notype" names no registered type, yet `ss_get_type` raises no error
(it returns the `NOTYPE` sentinel): the `strcmp(ct, "Notype")` special case
refutes the claim that an error is raised for every string or symbol that
does not name a registered type. -/
theorem ss_get_type_accepts_notype :
    getType sampleState1 "Notype" = none ∧
    exceptIsOk (ss_get_type sampleState1 (ScmVal.str "Notype")) = true := by
  exact ⟨by rfl, by rfl⟩

/-- Helper: error characterisation of `ss_get_type` on a string argument. -/
theorem ss_get_type_str_ok (s : ClassServerState) (nm : String) :
    exceptIsOk (ss_get_type s (ScmVal.str nm)) = true ↔
      ((∃ t, getType s nm = some t) ∨ nm = "Notype") := by
  simp only [ss_get_type]
  cases hg : getType s nm with
  | some t =>
    constructor
    · intro _; exact Or.inl ⟨t, rfl⟩
    · intro _; rfl
  | none =>
    by_cases hn : nm = "Notype"
    · rw [if_pos hn]
      constructor
      · intro _; exact Or.inr hn
      · intro _; rfl
    · rw [if_neg hn]
      constructor
      · intro hfalse; exact Bool.noConfusion hfalse
      · rintro (⟨t, hgt⟩ | hnm)
        · exact Option.noConfusion hgt
        · exact absurd hnm hn

/-- C9 (amended): `ss_get_type` raises a wrong-type-argument error exactly
when its argument is not a string or symbol, or is a string or symbol whose
name neither names a registered type nor is the literal "Notype" (which is
accepted and mapped to the `NOTYPE` sentinel). -/
theorem ss_get_type_error_characterisation (s : ClassServerState) (v : ScmVal) :
    exceptIsOk (ss_get_type s v) = true ↔
      ((∃ nm t, scmName v = some nm ∧ getType s nm = some t) ∨
       scmName v = some "Notype") := by
  cases v with
  | sym nm =>
    have h := ss_get_type_str_ok s nm
    constructor
    · intro hk
      rcases h.mp hk with ⟨t, hgt⟩ | hnm
      · exact Or.inl ⟨nm, t, rfl, hgt⟩
      · exact Or.inr (by subst hnm; rfl)
    · rintro (⟨nm2, t2, hnm, hgt⟩ | hnm)
      · injection hnm with hnm
        subst hnm
        exact h.mpr (Or.inl ⟨t2, hgt⟩)
      · injection hnm with hnm
        exact h.mpr (Or.inr hnm)
  | str nm =>
    have h := ss_get_type_str_ok s nm
    constructor
    · intro hk
      rcases h.mp hk with ⟨t, hgt⟩ | hnm
      · exact Or.inl ⟨nm, t, rfl, hgt⟩
      · exact Or.inr (by subst hnm; rfl)
    · rintro (⟨nm2, t2, hnm, hgt⟩ | hnm)
      · injection hnm with hnm
        subst hnm
        exact h.mpr (Or.inl ⟨t2, hgt⟩)
      · injection hnm with hnm
        exact h.mpr (Or.inr hnm)
  | other =>
    constructor
    · intro hfalse; exact Bool.noConfusion hfalse
    · rintro (⟨nm2, t2, hnm, _⟩ | hnm) <;> exact Option.noConfusion hnm

/-- The `while (1) { t--; ...; if (0 == t) break; }` loop of
`SchemeSmob::ss_get_types`, entered with the counter value before the
decrement: decrement, prepend `getTypeName` of the decremented counter, stop
when it reached zero.  In the C++ source the counter is an unsigned short
(per the `static_assert` in the same file), so on entry value 0 the
decrement wraps around; that wrap case is the `0` equation below and is
unreachable under the precondition `nTypes >= 1` of the claim. -/
def ss_get_types_loop (s : ClassServerState) : Nat → List String → List String
  | 0, acc => acc
  | Nat.succ t, acc =>
    let acc2 := getTypeName s t :: acc
    if t = 0 then acc2 else ss_get_types_loop s t acc2

/-- `SchemeSmob::ss_get_types` (`cog-get-types`): build the list of all type
names, consing from the highest code down, so the result is in ascending
code order. -/
def ss_get_types (s : ClassServerState) : List String :=
  ss_get_types_loop s (getNumberOfClasses s) []

theorem ss_get_types_loop_spec (s : ClassServerState) :
    ∀ t acc, 1 ≤ t →
      ss_get_types_loop s t acc = ((List.range t).map (getTypeName s)) ++ acc := by
  intro t
  induction t with
  | zero => intro acc h; exact absurd h (by decide)
  | succ t ih =>
    intro acc _
    by_cases ht : t = 0
    · subst ht
      simp [ss_get_types_loop, List.range_succ]
    · have h1 : 1 ≤ t := Nat.one_le_iff_ne_zero.mpr ht
      calc ss_get_types_loop s (t + 1) acc
          = ss_get_types_loop s t (getTypeName s t :: acc) := by
            simp only [ss_get_types_loop]
            rw [if_neg ht]
        _ = ((List.range t).map (getTypeName s)) ++ (getTypeName s t :: acc) := ih _ h1
        _ = ((List.range (t + 1)).map (getTypeName s)) ++ acc := by
            rw [List.range_succ, List.map_append]
            simp

/-- C10: whenever at least one type is registered, `ss_get_types` terminates
(it is a total function here; the recursion is structural) and returns
exactly `getNumberOfClasses` entries, namely `getTypeName t` for every code
`t` from `0` through `getNumberOfClasses - 1`, in ascending code order. -/
theorem ss_get_types_spec (s : ClassServerState) (h : 1 ≤ getNumberOfClasses s) :
    ss_get_types s = (List.range (getNumberOfClasses s)).map (fun t => getTypeName s t) ∧
    (ss_get_types s).length = getNumberOfClasses s := by
  have hs := ss_get_types_loop_spec s (getNumberOfClasses s) [] h
  rw [List.append_nil] at hs
  have hmain : ss_get_types s =
      (List.range (getNumberOfClasses s)).map (fun t => getTypeName s t) := by
    unfold ss_get_types
    exact hs
  exact ⟨hmain, by rw [hmain, List.length_map, List.length_range]⟩

/-- Witness for C10 at the one-type registry. -/
theorem ss_get_types_spec_witness :
    1 ≤ getNumberOfClasses sampleState1 ∧
    (ss_get_types sampleState1 =
      (List.range (getNumberOfClasses sampleState1)).map
        (fun t => getTypeName sampleState1 t) ∧
     (ss_get_types sampleState1).length = getNumberOfClasses sampleState1) := by
  exact ⟨by decide, ss_get_types_spec sampleState1 (by decide)⟩

/-! ## Basic list and matrix lemmas -/

theorem list_get?_set_self {α : Type} : ∀ (l : List α) (i : Nat) (x : α),
    i < l.length → (l.set i x).get? i = some x
  | [], i, _, h => absurd h (Nat.not_lt_zero i)
  | _ :: _, 0, _, _ => rfl
  | _ :: l, i + 1, x, h => list_get?_set_self l i x (Nat.lt_of_succ_lt_succ h)

theorem list_get?_set_ne {α : Type} : ∀ (l : List α) (i k : Nat) (x : α),
    i ≠ k → (l.set i x).get? k = l.get? k
  | [], _, _, _, _ => rfl
  | _ :: _, 0, 0, _, h => absurd rfl h
  | _ :: _, 0, _ + 1, _, _ => rfl
  | _ :: _, _ + 1, 0, _, _ => rfl
  | _ :: l, i + 1, k + 1, x, h =>
    list_get?_set_ne l i k x (fun he => h (by rw [he]))

theorem list_set_of_get? {α : Type} : ∀ (l : List α) (i : Nat) (x : α),
    l.get? i = some x → l.set i x = l
  | [], _, _, h => Option.noConfusion h
  | a :: l, 0, x, h => by
    injection h with h
    rw [List.set]
    rw [h]
  | _ :: l, i + 1, x, h => by
    rw [List.set]
    rw [list_set_of_get? l i x h]

theorem mget_ok (m : BMat) (i j : Nat) (hi : i < m.length)
    (hj : j < (m.get ⟨i, hi⟩).length) :
    mget m i j = .ok ((m.get ⟨i, hi⟩).get ⟨j, hj⟩) := by
  have h1 : m.get? i = some (m.get ⟨i, hi⟩) := List.get?_eq_get hi
  have h2 : (m.get ⟨i, hi⟩).get? j = some ((m.get ⟨i, hi⟩).get ⟨j, hj⟩) :=
    List.get?_eq_get hj
  unfold mget
  rw [h1]
  show (match (m.get ⟨i, hi⟩).get? j with
        | none => (Except.error .oob : Except AccessErr Bool)
        | some b => .ok b) = _
  rw [h2]

/-- `m` is a square matrix of side `n`. -/
def squareMat (m : BMat) (n : Nat) : Prop :=
  m.length = n ∧ ∀ row ∈ m, row.length = n

theorem entryB_of_get? (m : BMat) (i j : Nat) (row : List Bool)
    (h : m.get? i = some row) : entryB m i j = (row.get? j).getD false := by
  unfold entryB
  rw [h]
  rfl

theorem mset_elim (m : BMat) (i j : Nat) (v : Bool) (m2 : BMat)
    (h : mset m i j v = .ok m2) :
    ∃ row, m.get? i = some row ∧ j < row.length ∧ m2 = m.set i (row.set j v) := by
  unfold mset at h
  split at h
  · exact Except.noConfusion h
  · rename_i row hrow
    split at h
    · rename_i hj
      injection h with h
      exact ⟨row, hrow, hj, h.symm⟩
    · exact Except.noConfusion h

theorem mset_ok_of_bounds (m : BMat) (n i j : Nat) (v : Bool)
    (hsq : squareMat m n) (hi : i < n) (hj : j < n) :
    ∃ m2, mset m i j v = .ok m2 := by
  obtain ⟨hlen, hrows⟩ := hsq
  have hi2 : i < m.length := by rw [hlen]; exact hi
  have hrow : m.get? i = some (m.get ⟨i, hi2⟩) := List.get?_eq_get hi2
  refine ⟨m.set i ((m.get ⟨i, hi2⟩).set j v), ?_⟩
  unfold mset
  rw [hrow]
  have hjr : j < (m.get ⟨i, hi2⟩).length := by
    rw [hrows _ (List.get?_mem hrow)]
    exact hj
  exact if_pos hjr

theorem mset_square (m : BMat) (n i j : Nat) (v : Bool) (m2 : BMat)
    (hsq : squareMat m n) (h : mset m i j v = .ok m2) : squareMat m2 n := by
  obtain ⟨row, hrow, hj, hm2⟩ := mset_elim m i j v m2 h
  obtain ⟨hlen, hrows⟩ := hsq
  subst hm2
  constructor
  · rw [List.length_set]; exact hlen
  · intro r hr
    rcases List.mem_or_eq_of_mem_set hr with hmem | heq
    · exact hrows r hmem
    · rw [heq, List.length_set]
      exact hrows row (List.get?_mem hrow)

theorem entryB_mset_self (m : BMat) (i j : Nat) (v : Bool) (m2 : BMat)
    (h : mset m i j v = .ok m2) : entryB m2 i j = v := by
  obtain ⟨row, hrow, hj, hm2⟩ := mset_elim m i j v m2 h
  subst hm2
  have hi : i < m.length := by
    obtain ⟨hlt, _⟩ := List.get?_eq_some.mp hrow
    exact hlt
  have hset : (m.set i (row.set j v)).get? i = some (row.set j v) :=
    list_get?_set_self m i (row.set j v) hi
  rw [entryB_of_get? _ i j _ hset]
  rw [list_get?_set_self row j v hj]
  rfl

theorem entryB_mset_other (m : BMat) (i j : Nat) (v : Bool) (m2 : BMat)
    (a b : Nat) (h : mset m i j v = .ok m2) (hne : a ≠ i ∨ b ≠ j) :
    entryB m2 a b = entryB m a b := by
  obtain ⟨row, hrow, hj, hm2⟩ := mset_elim m i j v m2 h
  subst hm2
  rcases hne with ha | hb
  · unfold entryB
    rw [list_get?_set_ne m i a _ (fun he => ha he.symm)]
  · by_cases ha : a = i
    · subst ha
      have hi : a < m.length := by
        obtain ⟨hlt, _⟩ := List.get?_eq_some.mp hrow
        exact hlt
      have hset : (m.set a (row.set j v)).get? a = some (row.set j v) :=
        list_get?_set_self m a (row.set j v) hi
      rw [entryB_of_get? _ a b _ hset, entryB_of_get? m a b row hrow]
      rw [list_get?_set_ne row j b v (fun he => hb he.symm)]
    · unfold entryB
      rw [list_get?_set_ne m i a _ (fun he => ha he.symm)]

theorem mset_noop (m : BMat) (i j : Nat) (v : Bool) (m2 : BMat)
    (h : mset m i j v = .ok m2) (hv : entryB m i j = v) : m2 = m := by
  obtain ⟨row, hrow, hj, hm2⟩ := mset_elim m i j v m2 h
  subst hm2
  have hrv : row.get? j = some v := by
    rw [entryB_of_get? m i j row hrow] at hv
    cases hq : row.get? j with
    | none =>
      rw [hq] at hv
      have : j < row.length := hj
      rw [List.get?_eq_none] at hq
      omega
    | some b =>
      rw [hq] at hv
      exact congrArg some hv
  rw [list_set_of_get? row j v hrv]
  exact list_set_of_get? m i row hrow

theorem min_add_sub (k len : Nat) : min k len + (k - len) = k := by omega

theorem resizeMat_square (m : BMat) (n : Nat) : squareMat (resizeMat m n) n := by
  unfold resizeMat
  constructor
  · rw [List.length_map, List.length_append, List.length_take, List.length_replicate]
    omega
  · intro row hrow
    obtain ⟨r, _, hr⟩ := List.mem_map.mp hrow
    rw [← hr, List.length_append, List.length_take, List.length_replicate]
    omega

/-! ## Invariant preservation through `setParentRecursively` -/

/-- Generic unary-invariant preservation through the scan loop. -/
theorem sprIter_inv (Q : BMat → Prop)
    (sprF : Nat → BMat → Except AccessErr BMat) (parent : Nat)
    (hF : ∀ i a r, Q a → sprF i a = .ok r → Q r) :
    ∀ (idxs : List Nat) (a b : BMat), Q a → sprIter sprF parent idxs a = .ok b → Q b := by
  intro idxs
  induction idxs with
  | nil =>
    intro a b hQ h
    unfold sprIter at h
    injection h with h
    rw [← h]
    exact hQ
  | cons i rest ih =>
    intro a b hQ h
    unfold sprIter at h
    split at h
    · exact Except.noConfusion h
    · split at h
      · split at h
        · exact Except.noConfusion h
        · rename_i m2 hm2
          exact ih m2 b (hF i a m2 hQ hm2) h
      · exact ih a b hQ h

theorem spr_square (nn : Nat) :
    ∀ (f n p t : Nat) (m r : BMat), squareMat m nn →
      setParentRecursively f n p t m = .ok r → squareMat r nn := by
  intro f
  induction f with
  | zero => intro n p t m r _ h; exact Except.noConfusion h
  | succ f ih =>
    intro n p t m r hsq h
    unfold setParentRecursively at h
    split at h
    · exact Except.noConfusion h
    · rename_i m1 hm1
      exact sprIter_inv (fun a => squareMat a nn) _ p
        (fun i a r2 hQ hr2 => ih n i t a r2 hQ hr2)
        (List.range n) m1 r (mset_square m nn p t true m1 hsq hm1) h

/-- The scan loop never reports an out-of-bounds access when the matrix is
square of side `n`, all scanned indices and the parent are below `n`, and
the recursive calls themselves are out-of-bounds-free and preserve
squareness. -/
theorem sprIter_not_oob (n : Nat)
    (sprF : Nat → BMat → Except AccessErr BMat) (parent : Nat) (hp : parent < n)
    (hF : ∀ i a, i < n → squareMat a n → sprF i a ≠ .error .oob)
    (hFsq : ∀ i a r, squareMat a n → sprF i a = .ok r → squareMat r n) :
    ∀ (idxs : List Nat) (a : BMat), (∀ i ∈ idxs, i < n) → squareMat a n →
      sprIter sprF parent idxs a ≠ .error .oob := by
  intro idxs
  induction idxs with
  | nil =>
    intro a _ _ h
    unfold sprIter at h
    exact Except.noConfusion h
  | cons i rest ih =>
    intro a hidx hsq h
    have hi : i < n := hidx i (List.mem_cons_self i rest)
    have hirest : ∀ k ∈ rest, k < n := fun k hk => hidx k (List.mem_cons_of_mem i hk)
    unfold sprIter at h
    have hi2 : i < a.length := by rw [hsq.1]; exact hi
    have hrow : a.get? i = some (a.get ⟨i, hi2⟩) := List.get?_eq_get hi2
    have hjr : parent < (a.get ⟨i, hi2⟩).length := by
      rw [hsq.2 _ (List.get?_mem hrow)]
      exact hp
    have hmg : mget a i parent = .ok ((a.get ⟨i, hi2⟩).get ⟨parent, hjr⟩) :=
      mget_ok a i parent hi2 hjr
    split at h
    · rename_i e heq
      rw [hmg] at heq
      exact Except.noConfusion heq
    · split at h
      · split at h
        · rename_i e he
          injection h with h2
          rw [h2] at he
          exact hF i a hi hsq he
        · rename_i m2 hm2
          exact ih m2 hirest (hFsq i a m2 hsq hm2) h
      · exact ih a hirest hsq h

/-- `setParentRecursively` never reports out-of-bounds when the matrix is
square of side `n` and both arguments are below `n` (the internal safety of C5:
all reads `recursiveMap[i][parent]` have `i < n` from the loop bound, and
all writes go to `recursiveMap[·][type]`). -/
theorem spr_not_oob :
    ∀ (f n p t : Nat) (m : BMat), squareMat m n → p < n → t < n →
      setParentRecursively f n p t m ≠ .error .oob := by
  intro f
  induction f with
  | zero =>
    intro n p t m _ _ _ h
    unfold setParentRecursively at h
    injection h with h
    exact AccessErr.noConfusion h
  | succ f ih =>
    intro n p t m hsq hp ht h
    unfold setParentRecursively at h
    obtain ⟨m1, hm1⟩ := mset_ok_of_bounds m n p t true hsq hp ht
    rw [hm1] at h
    exact sprIter_not_oob n _ p hp
      (fun i a hi hsqa => ih n i t a hsqa hi ht)
      (fun i a r hsqa hr => spr_square n f n i t a r hsqa hr)
      (List.range n) m1 (fun i hi => List.mem_range.mp hi)
      (mset_square m n p t true m1 hsq hm1) h

/-! ## The registry well-formedness invariant -/

/-- Well-formedness of a registry state: both matrices are square of side
`nTypes`; the assigned codes are exactly `0 .. nTypes - 1` (newest first);
names are pairwise distinct; and `code2NameMap` mirrors `name2CodeMap`
exactly (the C++ code stores a pointer to the `name2CodeMap` key). -/
def WF (s : ClassServerState) : Prop :=
  squareMat s.inheritanceMap s.nTypes ∧
  squareMat s.recursiveMap s.nTypes ∧
  s.name2CodeMap.map Prod.snd = (List.range s.nTypes).reverse ∧
  (s.name2CodeMap.map Prod.fst).Nodup ∧
  s.code2NameMap = s.name2CodeMap.map (fun p => (p.2, p.1))

theorem alookup_mem : ∀ (l : List (String × Nat)) (key : String) (v : Nat),
    alookup l key = some v → (key, v) ∈ l := by
  intro l
  induction l with
  | nil => intro key v h; exact Option.noConfusion h
  | cons p rest ih =>
    intro key v h
    unfold alookup at h
    split at h
    · rename_i heq
      injection h with h
      rw [← heq, ← h]
      exact List.mem_cons_self _ _
    · exact List.mem_cons_of_mem _ (ih key v h)

theorem alookup_of_not_mem : ∀ (l : List (String × Nat)) (key : String),
    key ∉ l.map Prod.fst → alookup l key = none := by
  intro l
  induction l with
  | nil => intro key _; rfl
  | cons p rest ih =>
    intro key hkey
    unfold alookup
    rw [List.map_cons, List.mem_cons] at hkey
    push_neg at hkey
    rw [if_neg (fun he => hkey.1 he.symm)]
    exact ih key hkey.2

theorem alookup_none_not_mem : ∀ (l : List (String × Nat)) (key : String),
    alookup l key = none → key ∉ l.map Prod.fst := by
  intro l
  induction l with
  | nil => intro key _ hmem; exact List.not_mem_nil key hmem
  | cons p rest ih =>
    intro key h hmem
    unfold alookup at h
    split at h
    · exact Option.noConfusion h
    · rename_i hne
      rw [List.map_cons, List.mem_cons] at hmem
      rcases hmem with heq | hmem
      · exact hne heq.symm
      · exact ih key h hmem

theorem alookup_of_mem_nodup : ∀ (l : List (String × Nat)) (key : String) (v : Nat),
    (l.map Prod.fst).Nodup → (key, v) ∈ l → alookup l key = some v := by
  intro l
  induction l with
  | nil => intro key v _ hmem; exact absurd hmem (List.not_mem_nil _)
  | cons p rest ih =>
    intro key v hnd hmem
    rw [List.map_cons, List.nodup_cons] at hnd
    rw [List.mem_cons] at hmem
    unfold alookup
    rcases hmem with heq | hmem
    · rw [← heq]
      rw [if_pos rfl]
    · split
      · rename_i heq
        exfalso
        apply hnd.1
        rw [heq]
        exact List.mem_map.mpr ⟨(key, v), hmem, rfl⟩
      · exact ih key v hnd.2 hmem

theorem clookup_mem : ∀ (l : List (Nat × String)) (key : Nat) (v : String),
    clookup l key = some v → (key, v) ∈ l := by
  intro l
  induction l with
  | nil => intro key v h; exact Option.noConfusion h
  | cons p rest ih =>
    intro key v h
    unfold clookup at h
    split at h
    · rename_i heq
      injection h with h
      rw [← heq, ← h]
      exact List.mem_cons_self _ _
    · exact List.mem_cons_of_mem _ (ih key v h)

theorem clookup_of_mem_nodup : ∀ (l : List (Nat × String)) (key : Nat) (v : String),
    (l.map Prod.fst).Nodup → (key, v) ∈ l → clookup l key = some v := by
  intro l
  induction l with
  | nil => intro key v _ hmem; exact absurd hmem (List.not_mem_nil _)
  | cons p rest ih =>
    intro key v hnd hmem
    rw [List.map_cons, List.nodup_cons] at hnd
    rw [List.mem_cons] at hmem
    unfold clookup
    rcases hmem with heq | hmem
    · rw [← heq]
      rw [if_pos rfl]
    · split
      · rename_i heq
        exfalso
        apply hnd.1
        rw [heq]
        exact List.mem_map.mpr ⟨(key, v), hmem, rfl⟩
      · exact ih key v hnd.2 hmem

/-- The keys of the mirrored `code2NameMap` are the codes of `name2CodeMap`. -/
theorem mirror_keys (l : List (String × Nat)) :
    (l.map (fun p => (p.2, p.1))).map Prod.fst = l.map Prod.snd := by
  rw [List.map_map]
  rfl

/-- A registered code is below `nTypes` in a well-formed state. -/
theorem code_lt_of_getType (s : ClassServerState) (hWF : WF s) (nm : String)
    (t : Nat) (h : getType s nm = some t) : t < s.nTypes := by
  obtain ⟨-, -, hcodes, -, -⟩ := hWF
  have hmem : (nm, t) ∈ s.name2CodeMap := alookup_mem _ nm t h
  have : t ∈ s.name2CodeMap.map Prod.snd := List.mem_map.mpr ⟨(nm, t), hmem, rfl⟩
  rw [hcodes, List.mem_reverse] at this
  exact List.mem_range.mp this

/-- `addType` preserves well-formedness. -/
theorem addType_WF (fuel : Nat) (s : ClassServerState) (parent : Nat)
    (name : String) (s2 : ClassServerState) (t : Nat) (sigs : List Nat)
    (hWF : WF s) (h : addType fuel s parent name = .ok (s2, t, sigs)) : WF s2 := by
  cases hg : getType s name with
  | some t0 =>
    rw [addType_live fuel s parent name t0 hg] at h
    split at h
    · exact Except.noConfusion h
    · rename_i ih hih
      split at h
      · exact Except.noConfusion h
      · rename_i rm hrm
        injection h with h1
        injection h1 with hs _
        obtain ⟨hsq1, hsq2, hcodes, hkeys, hc2n⟩ := hWF
        rw [← hs]
        exact ⟨mset_square _ _ _ _ _ _ hsq1 hih,
               spr_square s.nTypes fuel s.nTypes parent t0 _ _ hsq2 hrm,
               hcodes, hkeys, hc2n⟩
  | none =>
    rw [addType_fresh fuel s parent name hg] at h
    split at h
    · exact Except.noConfusion h
    · rename_i ih1 hih1
      split at h
      · exact Except.noConfusion h
      · rename_i ih2 hih2
        split at h
        · exact Except.noConfusion h
        · rename_i rm1 hrm1
          split at h
          · exact Except.noConfusion h
          · rename_i rm2 hrm2
            injection h with h1
            injection h1 with hs _
            obtain ⟨hsq1, hsq2, hcodes, hkeys, hc2n⟩ := hWF
            rw [← hs]
            have hihsq : squareMat ih2 (s.nTypes + 1) :=
              mset_square _ _ _ _ _ _
                (mset_square _ _ _ _ _ _ (resizeMat_square s.inheritanceMap (s.nTypes + 1)) hih1)
                hih2
            have hrmsq : squareMat rm2 (s.nTypes + 1) :=
              spr_square (s.nTypes + 1) fuel (s.nTypes + 1) parent s.nTypes _ _
                (mset_square _ _ _ _ _ _ (resizeMat_square s.recursiveMap (s.nTypes + 1)) hrm1)
                hrm2
            refine ⟨hihsq, hrmsq, ?_, ?_, ?_⟩
            · show s.nTypes :: s.name2CodeMap.map Prod.snd = (List.range (s.nTypes + 1)).reverse
              rw [hcodes, List.range_succ, List.reverse_append]
              rfl
            · show (name :: s.name2CodeMap.map Prod.fst).Nodup
              rw [List.nodup_cons]
              exact ⟨alookup_none_not_mem _ name hg, hkeys⟩
            · show (s.nTypes, name) :: s.code2NameMap =
                ((name, s.nTypes) :: s.name2CodeMap).map (fun p => (p.2, p.1))
              rw [List.map_cons, hc2n]

theorem execSeq_WF (fuel : Nat) :
    ∀ (cmds : List (Nat × String)) (s s2 : ClassServerState),
      WF s → execSeq fuel cmds s = .ok s2 → WF s2 := by
  intro cmds
  induction cmds with
  | nil =>
    intro s s2 hWF h
    unfold execSeq at h
    injection h with h
    rw [← h]
    exact hWF
  | cons c rest ih =>
    intro s s2 hWF h
    unfold execSeq at h
    split at h
    · exact Except.noConfusion h
    · rename_i res s3 t sigs heq
      exact ih s3 s2 (addType_WF fuel s c.1 c.2 s3 t sigs hWF heq) h

theorem runSeq_WF (fuel : Nat) (cmds : List (Nat × String)) (s : ClassServerState)
    (h : runSeq fuel cmds = .ok s) : WF s := by
  have hempty : WF emptyState := by
    refine ⟨⟨rfl, ?_⟩, ⟨rfl, ?_⟩, rfl, List.nodup_nil, rfl⟩ <;>
      exact fun row hrow => absurd hrow (List.not_mem_nil row)
  exact execSeq_WF fuel cmds emptyState s hempty h

theorem snd_nodup_inj : ∀ (l : List (String × Nat)),
    (l.map Prod.snd).Nodup → ∀ a1 a2 b, (a1, b) ∈ l → (a2, b) ∈ l → a1 = a2 := by
  intro l
  induction l with
  | nil => intro _ a1 a2 b h1 _; exact absurd h1 (List.not_mem_nil _)
  | cons p rest ih =>
    intro hnd a1 a2 b h1 h2
    rw [List.map_cons, List.nodup_cons] at hnd
    rw [List.mem_cons] at h1 h2
    rcases h1 with he1 | h1 <;> rcases h2 with he2 | h2
    · rw [← he2] at he1; exact congrArg Prod.fst he1
    · exfalso
      apply hnd.1
      have : p.2 = b := by rw [← he1]
      rw [this]
      exact List.mem_map.mpr ⟨(a2, b), h2, rfl⟩
    · exfalso
      apply hnd.1
      have : p.2 = b := by rw [← he2]
      rw [this]
      exact List.mem_map.mpr ⟨(a1, b), h1, rfl⟩
    · exact ih hnd.2 a1 a2 b h1 h2

/-- C4: after every completed sequence of `addType` calls the name/code
mapping is a bijection and the lookups round-trip: `getTypeName (getType nm)
= nm` for registered names, `getType (getTypeName t) = t` for live codes,
no two live names share a code, and no code carries two names. -/
theorem name_code_bijection (fuel : Nat) (cmds : List (Nat × String))
    (s : ClassServerState) (h : runSeq fuel cmds = .ok s) :
    (∀ name t, getType s name = some t → getTypeName s t = name) ∧
    (∀ t, t < getNumberOfClasses s → getType s (getTypeName s t) = some t) ∧
    (∀ n1 n2 t, getType s n1 = some t → getType s n2 = some t → n1 = n2) ∧
    (∀ t nm1 nm2, clookup s.code2NameMap t = some nm1 →
      clookup s.code2NameMap t = some nm2 → nm1 = nm2) := by
  have hWF := runSeq_WF fuel cmds s h
  obtain ⟨-, -, hcodes, hkeys, hc2n⟩ := hWF
  have hcodesnd : (s.name2CodeMap.map Prod.snd).Nodup := by
    rw [hcodes]
    exact List.nodup_reverse.mpr (List.nodup_range _)
  have hc2nkeys : (s.code2NameMap.map Prod.fst).Nodup := by
    rw [hc2n, mirror_keys]
    exact hcodesnd
  refine ⟨?_, ?_, ?_, ?_⟩
  · intro name t hg
    have hmem : (name, t) ∈ s.name2CodeMap := alookup_mem _ name t hg
    have hmem2 : (t, name) ∈ s.code2NameMap := by
      rw [hc2n]
      exact List.mem_map.mpr ⟨(name, t), hmem, rfl⟩
    unfold getTypeName
    rw [clookup_of_mem_nodup _ t name hc2nkeys hmem2]
  · intro t ht
    have htmem : t ∈ s.name2CodeMap.map Prod.snd := by
      rw [hcodes, List.mem_reverse]
      exact List.mem_range.mpr ht
    obtain ⟨p, hp, hpt⟩ := List.mem_map.mp htmem
    have hmem2 : (t, p.1) ∈ s.code2NameMap := by
      rw [hc2n]
      refine List.mem_map.mpr ⟨p, hp, ?_⟩
      rw [hpt]
    unfold getTypeName
    rw [clookup_of_mem_nodup _ t p.1 hc2nkeys hmem2]
    unfold getType
    have : (p.1, t) ∈ s.name2CodeMap := by
      have : p = (p.1, t) := by
        rw [← hpt]
      rw [← this]
      exact hp
    exact alookup_of_mem_nodup _ p.1 t hkeys this
  · intro n1 n2 t h1 h2
    exact snd_nodup_inj _ hcodesnd n1 n2 t (alookup_mem _ n1 t h1) (alookup_mem _ n2 t h2)
  · intro t nm1 nm2 h1 h2
    rw [h1] at h2
    exact Option.some.inj h2

/-- Witness for C4 at a concrete two-call run. -/
theorem name_code_bijection_witness :
    runSeq 10 [(0, "A"), (0, "B")] = .ok sampleState2 ∧
    ((∀ name t, getType sampleState2 name = some t → getTypeName sampleState2 t = name) ∧
     (∀ t, t < getNumberOfClasses sampleState2 →
       getType sampleState2 (getTypeName sampleState2 t) = some t) ∧
     (∀ n1 n2 t, getType sampleState2 n1 = some t →
       getType sampleState2 n2 = some t → n1 = n2) ∧
     (∀ t nm1 nm2, clookup sampleState2.code2NameMap t = some nm1 →
       clookup sampleState2.code2NameMap t = some nm2 → nm1 = nm2)) := by
  exact ⟨by rfl, name_code_bijection 10 [(0, "A"), (0, "B")] sampleState2 (by rfl)⟩

/-- C6: every read query is total and signals not-found by sentinel: an
unregistered name looks up to the `NOTYPE` sentinel, a code with no bound
name (in particular any code at or above `nTypes`) yields the sentinel
"unknown type" string, and `isA_non_recursive` is `false` whenever either
argument is at or above `nTypes`. -/
theorem queries_total_with_sentinels (fuel : Nat) (cmds : List (Nat × String))
    (s : ClassServerState) (h : runSeq fuel cmds = .ok s) :
    (∀ name, (∀ t, (name, t) ∉ s.name2CodeMap) → getType s name = none) ∧
    (∀ t, (∀ nm, (t, nm) ∉ s.code2NameMap) → getTypeName s t = unknownTypeName) ∧
    (∀ t, getNumberOfClasses s ≤ t → getTypeName s t = unknownTypeName) ∧
    (∀ t p, getNumberOfClasses s ≤ t ∨ getNumberOfClasses s ≤ p →
      isA_non_recursive s t p = false) := by
  have hWF := runSeq_WF fuel cmds s h
  obtain ⟨-, -, hcodes, hkeys, hc2n⟩ := hWF
  have hnone : ∀ t, getNumberOfClasses s ≤ t → clookup s.code2NameMap t = none := by
    intro t ht
    cases hq : clookup s.code2NameMap t with
    | none => rfl
    | some nm =>
      exfalso
      have hmem := clookup_mem _ t nm hq
      rw [hc2n] at hmem
      obtain ⟨p, hp, hpe⟩ := List.mem_map.mp hmem
      have : p.2 ∈ s.name2CodeMap.map Prod.snd := List.mem_map.mpr ⟨p, hp, rfl⟩
      rw [hcodes, List.mem_reverse] at this
      have hlt := List.mem_range.mp this
      have hp2t : p.2 = t := congrArg Prod.fst hpe
      have ht2 : s.nTypes ≤ t := ht
      omega
  refine ⟨?_, ?_, ?_, ?_⟩
  · intro name hname
    unfold getType
    cases hq : alookup s.name2CodeMap name with
    | none => rfl
    | some t => exact absurd (alookup_mem _ name t hq) (hname t)
  · intro t hnm
    unfold getTypeName
    cases hq : clookup s.code2NameMap t with
    | none => rfl
    | some nm => exact absurd (clookup_mem _ t nm hq) (hnm nm)
  · intro t ht
    unfold getTypeName
    rw [hnone t ht]
  · intro t p hcase
    unfold isA_non_recursive
    have hcond : (decide (s.nTypes ≤ t) || decide (s.nTypes ≤ p)) = true := by
      rcases hcase with h1 | h1
      · rw [Bool.or_eq_true]
        exact Or.inl (decide_eq_true h1)
      · rw [Bool.or_eq_true]
        exact Or.inr (decide_eq_true h1)
    rw [if_pos hcond]

/-- Witness for C6 at a concrete run. -/
theorem queries_total_with_sentinels_witness :
    runSeq 10 [(0, "A")] = .ok sampleState1 ∧
    ((∀ name, (∀ t, (name, t) ∉ sampleState1.name2CodeMap) →
       getType sampleState1 name = none) ∧
     (∀ t, (∀ nm, (t, nm) ∉ sampleState1.code2NameMap) →
       getTypeName sampleState1 t = unknownTypeName) ∧
     (∀ t, getNumberOfClasses sampleState1 ≤ t →
       getTypeName sampleState1 t = unknownTypeName) ∧
     (∀ t p, getNumberOfClasses sampleState1 ≤ t ∨ getNumberOfClasses sampleState1 ≤ p →
       isA_non_recursive sampleState1 t p = false)) := by
  exact ⟨by rfl, queries_total_with_sentinels 10 [(0, "A")] sampleState1 (by rfl)⟩

/-- C5 (amended): `addType` performs no out-of-bounds matrix access provided
the parent is a registered code, or the name is fresh and the parent equals
the code about to be assigned (the self-parent idiom used to register root
types).  With any other unregistered parent the write
`inheritanceMap[parent][type]` is out of bounds (see the counterexample). -/
theorem addType_no_oob (fuel : Nat) (s : ClassServerState) (parent : Nat)
    (name : String) (hWF : WF s)
    (hp : parent < s.nTypes ∨ (getType s name = none ∧ parent = s.nTypes)) :
    addType fuel s parent name ≠ .error .oob := by
  have hsq1 := hWF.1
  have hsq2 := hWF.2.1
  cases hg : getType s name with
  | some t0 =>
    have hplt : parent < s.nTypes := by
      rcases hp with h1 | ⟨h1, -⟩
      · exact h1
      · rw [hg] at h1; exact Option.noConfusion h1
    have ht0 : t0 < s.nTypes := code_lt_of_getType s hWF name t0 hg
    rw [addType_live fuel s parent name t0 hg]
    intro h
    split at h
    · rename_i e heq
      obtain ⟨m2, hm2⟩ := mset_ok_of_bounds s.inheritanceMap s.nTypes parent t0 true hsq1 hplt ht0
      rw [hm2] at heq
      exact Except.noConfusion heq
    · split at h
      · rename_i e heq
        injection h with h2
        rw [h2] at heq
        exact spr_not_oob fuel s.nTypes parent t0 s.recursiveMap hsq2 hplt ht0 heq
      · exact Except.noConfusion h
  | none =>
    have hple : parent < s.nTypes + 1 := by
      rcases hp with h1 | ⟨-, h1⟩
      · omega
      · omega
    rw [addType_fresh fuel s parent name hg]
    intro h
    have hsqih0 := resizeMat_square s.inheritanceMap (s.nTypes + 1)
    have hsqrm0 := resizeMat_square s.recursiveMap (s.nTypes + 1)
    have hn : s.nTypes < s.nTypes + 1 := Nat.lt_succ_self _
    split at h
    · rename_i e heq
      obtain ⟨m2, hm2⟩ := mset_ok_of_bounds _ (s.nTypes + 1) s.nTypes s.nTypes true hsqih0 hn hn
      rw [hm2] at heq
      exact Except.noConfusion heq
    · rename_i ih1 hih1
      have hsqih1 := mset_square _ _ _ _ _ _ hsqih0 hih1
      split at h
      · rename_i e heq
        obtain ⟨m2, hm2⟩ := mset_ok_of_bounds ih1 (s.nTypes + 1) parent s.nTypes true hsqih1 hple hn
        rw [hm2] at heq
        exact Except.noConfusion heq
      · split at h
        · rename_i e heq
          obtain ⟨m2, hm2⟩ := mset_ok_of_bounds _ (s.nTypes + 1) s.nTypes s.nTypes true hsqrm0 hn hn
          rw [hm2] at heq
          exact Except.noConfusion heq
        · rename_i rm1 hrm1
          have hsqrm1 := mset_square _ _ _ _ _ _ hsqrm0 hrm1
          split at h
          · rename_i e heq
            injection h with h2
            rw [h2] at heq
            exact spr_not_oob fuel (s.nTypes + 1) parent s.nTypes rm1 hsqrm1 hple hn heq
          · exact Except.noConfusion h

/-- Witness for the amended C5. -/
theorem addType_no_oob_witness :
    WF sampleState1 ∧
    (0 < sampleState1.nTypes ∨
      (getType sampleState1 "B" = none ∧ 0 = sampleState1.nTypes)) ∧
    addType 10 sampleState1 0 "B" ≠ .error .oob := by
  refine ⟨?_, Or.inl (by decide), addType_no_oob 10 sampleState1 0 "B" ?_ (Or.inl (by decide))⟩ <;>
    exact ⟨⟨rfl, by decide⟩, ⟨rfl, by decide⟩, by rfl, by decide, rfl⟩

/-! ## C7: termination of closure propagation -/

/-- The ancestor relation of matrix `m` restricted to codes below `n`,
without its reflexive diagonal, has no cycle. -/
def AcyclicRec (n : Nat) (m : BMat) : Prop :=
  ∀ x, x < n → ¬ Relation.TransGen (fun a b => entryB m a b = true ∧ a ≠ b) x x

/-- The recursive matrix of the diverging example: `nTypes = 2`, single
off-diagonal entry `recursiveMap[1][0]` (type 1 is an ancestor of type 0). -/
def divM0 : BMat := [[false, false], [true, false]]

/-- The fixed point matrix the diverging run cycles on. -/
def divM2 : BMat := [[false, true], [true, true]]

theorem divAB : ∀ f,
    setParentRecursively f 2 0 1 divM2 = .error .fuel ∧
    setParentRecursively f 2 1 1 divM2 = .error .fuel := by
  intro f
  induction f with
  | zero => exact ⟨rfl, rfl⟩
  | succ f ih =>
    constructor
    · have step : setParentRecursively (f + 1) 2 0 1 divM2 =
          (match setParentRecursively f 2 1 1 divM2 with
           | .error e => .error e
           | .ok m3 =>
             sprIter (fun i acc => setParentRecursively f 2 i 1 acc) 0 [] m3) := rfl
      rw [step, ih.2]
    · have step : setParentRecursively (f + 1) 2 1 1 divM2 =
          (match setParentRecursively f 2 0 1 divM2 with
           | .error e => .error e
           | .ok m3 =>
             sprIter (fun i acc => setParentRecursively f 2 i 1 acc) 1 [1] m3) := rfl
      rw [step, ih.1]

theorem div_entry : ∀ f, setParentRecursively f 2 0 1 divM0 = .error .fuel := by
  intro f
  match f with
  | 0 => rfl
  | 1 => rfl
  | f + 2 =>
    have step : setParentRecursively (f + 2) 2 0 1 divM0 =
        (match (match setParentRecursively f 2 0 1 divM2 with
                | Except.error e => (Except.error e : Except AccessErr BMat)
                | Except.ok m3 =>
                  sprIter (fun i acc => setParentRecursively f 2 i 1 acc) 1 [1] m3) with
         | .error e => .error e
         | .ok m4 =>
           sprIter (fun i acc => setParentRecursively (f + 1) 2 i 1 acc) 0 [] m4) := rfl
    rw [step, (divAB f).1]

/-- C7 counterexample: the state `divM0` (two types, single ancestor fact
`recursiveMap[1][0]`) is acyclic apart from the diagonal, both arguments are
below `nTypes = 2`, and yet `setParentRecursively(0, 1)` never terminates:
the newly asserted edge `0 → 1` closes a cycle with the existing fact that 1
is an ancestor of 0, and the recursion bounces between `(0,1)` and `(1,1)`
forever (it exhausts every recursion-depth budget).  Acyclicity of the
*current* state is therefore not sufficient for termination, refuting the
claim as stated. -/
theorem spr_diverges_on_acyclic_state :
    AcyclicRec 2 divM0 ∧ 0 < 2 ∧ 1 < 2 ∧
    ¬ ∃ f r, setParentRecursively f 2 0 1 divM0 = .ok r := by
  refine ⟨?_, by decide, by decide, ?_⟩
  · intro x _ htg
    have hR : ∀ a b, (entryB divM0 a b = true ∧ a ≠ b) → a = 1 ∧ b = 0 := by
      intro a b ⟨h1, _⟩
      match a, b with
      | 0, 0 => exact Bool.noConfusion h1
      | 0, 1 => exact Bool.noConfusion h1
      | 0, b + 2 => exact Bool.noConfusion h1
      | 1, 0 => exact ⟨rfl, rfl⟩
      | 1, 1 => exact Bool.noConfusion h1
      | 1, b + 2 => exact Bool.noConfusion h1
      | a + 2, b => exact Bool.noConfusion h1
    have hchar : ∀ y z, Relation.TransGen
        (fun a b => entryB divM0 a b = true ∧ a ≠ b) y z → y = 1 ∧ z = 0 := by
      intro y z htg2
      induction htg2 with
      | single h => exact hR _ _ h
      | tail _ hstep ih => exact ⟨ih.1, (hR _ _ hstep).2⟩
    obtain ⟨h1, h0⟩ := hchar x x htg
    rw [h1] at h0
    exact Nat.noConfusion h0
  · rintro ⟨f, r, hr⟩
    rw [div_entry f] at hr
    exact Except.noConfusion hr

theorem mget_eq_entryB (m : BMat) (n i j : Nat) (hsq : squareMat m n)
    (hi : i < n) (hj : j < n) : mget m i j = .ok (entryB m i j) := by
  have hi2 : i < m.length := by rw [hsq.1]; exact hi
  have hrow : m.get? i = some (m.get ⟨i, hi2⟩) := List.get?_eq_get hi2
  have hj2 : j < (m.get ⟨i, hi2⟩).length := by
    rw [hsq.2 _ (List.get?_mem hrow)]
    exact hj
  rw [mget_ok m i j hi2 hj2]
  congr 1
  rw [entryB_of_get? m i j _ hrow, List.get?_eq_get hj2]
  rfl

theorem spr_unfold (f n p t : Nat) (m m1 : BMat)
    (hm1 : mset m p t true = .ok m1) :
    setParentRecursively (f + 1) n p t m =
      sprIter (fun i acc => setParentRecursively f n i t acc) p (List.range n) m1 := by
  have h0 : setParentRecursively (f + 1) n p t m =
      (match mset m p t true with
       | .error e => .error e
       | .ok m2 =>
         sprIter (fun i acc => setParentRecursively f n i t acc) p (List.range n) m2) := rfl
  rw [h0]
  split
  · rename_i e heq
    rw [hm1] at heq
    exact Except.noConfusion heq
  · rename_i m2 heq
    rw [hm1] at heq
    injection heq with heq
    rw [heq]

theorem sprIter_cons_true (sprF : Nat → BMat → Except AccessErr BMat) (p i : Nat)
    (rest : List Nat) (a : BMat) (hb : mget a i p = .ok true) (hip : i ≠ p) :
    sprIter sprF p (i :: rest) a =
      match sprF i a with
      | .error e => .error e
      | .ok m2 => sprIter sprF p rest m2 := by
  have h0 : sprIter sprF p (i :: rest) a =
      (match mget a i p with
       | .error e => .error e
       | .ok b =>
         if b = true ∧ i ≠ p then
           match sprF i a with
           | .error e => .error e
           | .ok m2 => sprIter sprF p rest m2
         else sprIter sprF p rest a) := rfl
  rw [h0]
  split
  · rename_i e heq
    rw [hb] at heq
    exact Except.noConfusion heq
  · rename_i b heq
    rw [hb] at heq
    injection heq with heq
    rw [← heq]
    rw [if_pos ⟨rfl, hip⟩]

theorem sprIter_cons_false (sprF : Nat → BMat → Except AccessErr BMat) (p i : Nat)
    (rest : List Nat) (a : BMat) (b : Bool) (hb : mget a i p = .ok b)
    (hguard : ¬ (b = true ∧ i ≠ p)) :
    sprIter sprF p (i :: rest) a = sprIter sprF p rest a := by
  have h0 : sprIter sprF p (i :: rest) a =
      (match mget a i p with
       | .error e => .error e
       | .ok b =>
         if b = true ∧ i ≠ p then
           match sprF i a with
           | .error e => .error e
           | .ok m2 => sprIter sprF p rest m2
         else sprIter sprF p rest a) := rfl
  rw [h0]
  split
  · rename_i e heq
    rw [hb] at heq
    exact Except.noConfusion heq
  · rename_i b2 heq
    rw [hb] at heq
    injection heq with heq
    rw [← heq]
    rw [if_neg hguard]

/-- Loop part of the termination argument: if every recursive call launched
from a node of strictly smaller rank succeeds and preserves the invariants,
the scan loop succeeds and preserves them. -/
theorem sprIter_term (n _t : Nat) (μ : Nat → Nat) (x : Nat) (hx : x < n)
    (sprF : Nat → BMat → Except AccessErr BMat)
    (hF : ∀ i a, i < n → squareMat a n →
      (∀ c i2, c < n → i2 < n → entryB a i2 c = true → i2 ≠ c → μ i2 < μ c) →
      μ i < μ x →
      ∃ r, sprF i a = .ok r ∧ squareMat r n ∧
        (∀ c i2, c < n → i2 < n → entryB r i2 c = true → i2 ≠ c → μ i2 < μ c)) :
    ∀ (idxs : List Nat) (a : BMat), (∀ i ∈ idxs, i < n) → squareMat a n →
      (∀ c i2, c < n → i2 < n → entryB a i2 c = true → i2 ≠ c → μ i2 < μ c) →
      ∃ r, sprIter sprF x idxs a = .ok r ∧ squareMat r n ∧
        (∀ c i2, c < n → i2 < n → entryB r i2 c = true → i2 ≠ c → μ i2 < μ c) := by
  intro idxs
  induction idxs with
  | nil =>
    intro a _ hsq hhyp
    exact ⟨a, rfl, hsq, hhyp⟩
  | cons i rest ih =>
    intro a hidx hsq hhyp
    have hi : i < n := hidx i (List.mem_cons_self i rest)
    have hirest : ∀ k ∈ rest, k < n := fun k hk => hidx k (List.mem_cons_of_mem i hk)
    have hmg := mget_eq_entryB a n i x hsq hi hx
    by_cases hguard : entryB a i x = true ∧ i ≠ x
    · rw [hguard.1] at hmg
      rw [sprIter_cons_true sprF x i rest a hmg hguard.2]
      have hmu : μ i < μ x := hhyp x i hx hi hguard.1 hguard.2
      obtain ⟨r, hr, hsqr, hhypr⟩ := hF i a hi hsq hhyp hmu
      rw [hr]
      obtain ⟨r2, hr2, hsq2, hhyp2⟩ := ih r hirest hsqr hhypr
      exact ⟨r2, hr2, hsq2, hhyp2⟩
    · rw [sprIter_cons_false sprF x i rest a _ hmg hguard]
      exact ih a hirest hsq hhyp

theorem spr_term_aux (n t : Nat) (μ : Nat → Nat) (ht : t < n) :
    ∀ (k x : Nat) (m : BMat), x < n → squareMat m n →
      (∀ c i, c < n → i < n → entryB m i c = true → i ≠ c → μ i < μ c) →
      μ x < μ t → μ x < k →
      ∃ r, setParentRecursively k n x t m = .ok r ∧ squareMat r n ∧
        (∀ c i, c < n → i < n → entryB r i c = true → i ≠ c → μ i < μ c) := by
  intro k
  induction k with
  | zero => intro x m _ _ _ _ hxk; exact absurd hxk (Nat.not_lt_zero _)
  | succ k ih =>
    intro x m hx hsq hhyp hxt hxk
    obtain ⟨m1, hm1⟩ := mset_ok_of_bounds m n x t true hsq hx ht
    have hsq1 := mset_square m n x t true m1 hsq hm1
    have hhyp1 : ∀ c i, c < n → i < n → entryB m1 i c = true → i ≠ c → μ i < μ c := by
      intro c i hc hi he hne
      by_cases hit : i = x ∧ c = t
      · rw [hit.1, hit.2]
        exact hxt
      · rw [Decidable.not_and_iff_or_not] at hit
        rw [entryB_mset_other m x t true m1 i c hm1 hit] at he
        exact hhyp c i hc hi he hne
    rw [spr_unfold k n x t m m1 hm1]
    exact sprIter_term n t μ x hx _
      (fun i a hi hsqa hhypa hmu =>
        ih i a hi hsqa hhypa (Nat.lt_trans hmu hxt) (by omega))
      (List.range n) m1 (fun i hi2 => List.mem_range.mp hi2) hsq1 hhyp1

/-- C7 (amended): `setParentRecursively(parent, type)` with `parent < nTypes`
and `type < nTypes` terminates provided the ancestor relation *together with
the newly asserted edge* is acyclic, expressed by a rank function `μ` that
strictly decreases along every off-diagonal ancestor fact and satisfies
`μ parent < μ type` (for a finite relation such a `μ` exists exactly when
the relation plus the new edge is acyclic; the counterexample shows that
acyclicity of the current state alone is not enough, because the new edge
may close a cycle).  The recursion depth `μ parent + 1` suffices. -/
theorem spr_terminates (n parent type_ : Nat) (m : BMat) (μ : Nat → Nat)
    (hsq : squareMat m n) (hp : parent < n) (ht : type_ < n)
    (hedge : ∀ c, c < n → ∀ i, i < n → entryB m i c = true → i ≠ c → μ i < μ c)
    (hpt : μ parent < μ type_) :
    ∃ f r, setParentRecursively f n parent type_ m = .ok r := by
  obtain ⟨r, hr, -, -⟩ := spr_term_aux n type_ μ ht (μ parent + 1) parent m hp hsq
    (fun c i hc hi he hne => hedge c hc i hi he hne) hpt (Nat.lt_succ_self _)
  exact ⟨μ parent + 1, r, hr⟩

/-- Witness for the amended C7: the empty two-type ancestor matrix with the
identity rank. -/
theorem spr_terminates_witness :
    squareMat [[false, false], [false, false]] 2 ∧ 0 < 2 ∧ 1 < 2 ∧
    (∀ c, c < 2 → ∀ i, i < 2 →
      entryB [[false, false], [false, false]] i c = true → i ≠ c →
        (fun v => v) i < (fun v => v) c) ∧
    (0 : Nat) < 1 ∧
    ∃ f r, setParentRecursively f 2 0 1 [[false, false], [false, false]] = .ok r := by
  refine ⟨⟨rfl, by decide⟩, by decide, by decide, by decide, by decide, ?_⟩
  exact spr_terminates 2 0 1 [[false, false], [false, false]] (fun v => v)
    ⟨rfl, by decide⟩ (by decide) (by decide) (by decide) (by decide)

/-! ## C3: idempotence of `addType`

`setParentRecursively (p, t)` only ever writes column `t` (entries
`recursiveMap[v][t]`), and only writes `true`.  `Mid t m a` says `a` is
obtainable from `m` by such writes: all other columns agree, and column `t`
only grew.  A second identical run over the result of a first run can then
be shown to rewrite only entries that are already `true`. -/

def Mid (t : Nat) (m a : BMat) : Prop :=
  (∀ i j, j ≠ t → entryB a i j = entryB m i j) ∧
  (∀ i, entryB m i t = true → entryB a i t = true)

theorem mid_refl (t : Nat) (m : BMat) : Mid t m m :=
  ⟨fun _ _ _ => rfl, fun _ h => h⟩

theorem mid_trans {t : Nat} {a b c : BMat} (h1 : Mid t a b) (h2 : Mid t b c) :
    Mid t a c :=
  ⟨fun i j hj => (h2.1 i j hj).trans (h1.1 i j hj),
   fun i h => h2.2 i (h1.2 i h)⟩

theorem mid_entry_true {t : Nat} {a b : BMat} (hmid : Mid t a b) (i j : Nat)
    (h : entryB a i j = true) : entryB b i j = true := by
  by_cases hj : j = t
  · subst hj
    exact hmid.2 i h
  · rw [hmid.1 i j hj]
    exact h

theorem mid_mset (m : BMat) (x t : Nat) (m1 : BMat)
    (h : mset m x t true = .ok m1) : Mid t m m1 := by
  constructor
  · intro i j hj
    exact entryB_mset_other m x t true m1 i j h (Or.inr hj)
  · intro i he
    by_cases hix : i = x
    · subst hix
      rw [entryB_mset_self m i t true m1 h]
    · rw [entryB_mset_other m x t true m1 i t h (Or.inl hix)]
      exact he

theorem entryB_of_mget (m : BMat) (i j : Nat) (b : Bool)
    (h : mget m i j = .ok b) : entryB m i j = b := by
  unfold mget at h
  split at h
  · exact Except.noConfusion h
  · rename_i row hrow
    split at h
    · exact Except.noConfusion h
    · rename_i bb hbb
      injection h with h
      rw [entryB_of_get? m i j row hrow, hbb]
      exact h

theorem sprIter_mid (t : Nat) (sprF : Nat → BMat → Except AccessErr BMat)
    (p : Nat) (hF : ∀ i a r, sprF i a = .ok r → Mid t a r)
    (idxs : List Nat) (a b : BMat) (h : sprIter sprF p idxs a = .ok b) :
    Mid t a b :=
  sprIter_inv (Mid t a) sprF p
    (fun i acc r hQ hr => mid_trans hQ (hF i acc r hr)) idxs a b
    (mid_refl t a) h

theorem spr_mid (t : Nat) : ∀ (f n p : Nat) (m r : BMat),
    setParentRecursively f n p t m = .ok r → Mid t m r := by
  intro f
  induction f with
  | zero => intro n p m r h; exact Except.noConfusion h
  | succ f ih =>
    intro n p m r h
    have h0 : setParentRecursively (f + 1) n p t m =
        (match mset m p t true with
         | .error e => .error e
         | .ok m1 =>
           sprIter (fun i acc => setParentRecursively f n i t acc) p
             (List.range n) m1) := rfl
    rw [h0] at h
    split at h
    · exact Except.noConfusion h
    · rename_i m1 hm1
      exact mid_trans (mid_mset m p t m1 hm1)
        (sprIter_mid t _ p (fun i a r2 hr2 => ih n i a r2 hr2) (List.range n) m1 r h)

theorem spr_first_write (t : Nat) : ∀ (f n p : Nat) (m r : BMat),
    setParentRecursively f n p t m = .ok r → entryB r p t = true := by
  intro f
  cases f with
  | zero => intro n p m r h; exact Except.noConfusion h
  | succ f =>
    intro n p m r h
    have h0 : setParentRecursively (f + 1) n p t m =
        (match mset m p t true with
         | .error e => .error e
         | .ok m1 =>
           sprIter (fun i acc => setParentRecursively f n i t acc) p
             (List.range n) m1) := rfl
    rw [h0] at h
    split at h
    · exact Except.noConfusion h
    · rename_i m1 hm1
      exact mid_entry_true
        (sprIter_mid t _ p (fun i a r2 hr2 => spr_mid t f n i a r2 hr2)
          (List.range n) m1 r h) p t
        (entryB_mset_self m p t true m1 hm1)

/-- Every index of the scan whose guard entry is already set at loop entry
gives rise to a recursive call, on a matrix between the entry matrix and the
loop result. -/
theorem sprIter_calls (t : Nat) (sprF : Nat → BMat → Except AccessErr BMat)
    (p : Nat) (hFmid : ∀ i a r, sprF i a = .ok r → Mid t a r) :
    ∀ (idxs : List Nat) (a b : BMat), sprIter sprF p idxs a = .ok b →
      ∀ i, i ∈ idxs → i ≠ p → entryB a i p = true →
        ∃ c r2, sprF i c = .ok r2 ∧ Mid t a c ∧ Mid t r2 b := by
  intro idxs
  induction idxs with
  | nil => intro a b _ i hmem; exact absurd hmem (List.not_mem_nil i)
  | cons k rest ihl =>
    intro a b h i hmem hip hie
    have h0 : sprIter sprF p (k :: rest) a =
        (match mget a k p with
         | .error e => .error e
         | .ok bb =>
           if bb = true ∧ k ≠ p then
             match sprF k a with
             | .error e => .error e
             | .ok m2 => sprIter sprF p rest m2
           else sprIter sprF p rest a) := rfl
    rw [h0] at h
    split at h
    · exact Except.noConfusion h
    · rename_i bb heqb
      split at h
      · split at h
        · exact Except.noConfusion h
        · rename_i m2 hm2
          rcases List.mem_cons.mp hmem with hik | hmem2
          · subst hik
            exact ⟨a, m2, hm2, mid_refl t a,
                   sprIter_mid t sprF p hFmid rest m2 b h⟩
          · have hie2 : entryB m2 i p = true :=
              mid_entry_true (hFmid k a m2 hm2) i p hie
            obtain ⟨c, r2, hc, hmidc, hmidr⟩ := ihl m2 b h i hmem2 hip hie2
            exact ⟨c, r2, hc, mid_trans (hFmid k a m2 hm2) hmidc, hmidr⟩
      · rename_i hguard
        rcases List.mem_cons.mp hmem with hik | hmem2
        · subst hik
          exfalso
          apply hguard
          refine ⟨?_, hip⟩
          rw [← entryB_of_mget a i p bb heqb]
          exact hie
        · exact ihl a b h i hmem2 hip hie

/-- `GoodCall n t m r x`: somewhere inside a run from matrix `m` to result
`r`, `setParentRecursively` was invoked at node `x` (on a matrix between `m`
and `r` in the `Mid` order, with a result between them too). -/
def GoodCall (n t : Nat) (m r : BMat) (x : Nat) : Prop :=
  ∃ f c r2, setParentRecursively f n x t c = .ok r2 ∧ Mid t m c ∧ Mid t r2 r

theorem goodCall_mono {n t : Nat} {a b a2 b2 : BMat} {x : Nat}
    (h : GoodCall n t a b x) (ha : Mid t a2 a) (hb : Mid t b b2) :
    GoodCall n t a2 b2 x :=
  let ⟨f, c, r2, hc, h1, h2⟩ := h
  ⟨f, c, r2, hc, mid_trans ha h1, mid_trans h2 hb⟩

theorem bool_not_true {b : Bool} (h : ¬ b = true) : b = false := by
  cases b
  · rfl
  · exact absurd rfl h

/-- Provenance through the scan loop: a column-`t` entry that flips from
`false` to `true` during the loop was written by some recursive call. -/
theorem sprIter_prov (n t : Nat) (sprF : Nat → BMat → Except AccessErr BMat)
    (p : Nat) (hFmid : ∀ i a r, sprF i a = .ok r → Mid t a r)
    (hFprov : ∀ i a r, sprF i a = .ok r →
      ∀ v, entryB a v t = false → entryB r v t = true → GoodCall n t a r v) :
    ∀ (idxs : List Nat) (a b : BMat), sprIter sprF p idxs a = .ok b →
      ∀ v, entryB a v t = false → entryB b v t = true → GoodCall n t a b v := by
  intro idxs
  induction idxs with
  | nil =>
    intro a b h v hvf hvt
    have h0 : sprIter sprF p [] a = .ok a := rfl
    rw [h0] at h
    injection h with h
    rw [h] at hvf
    rw [hvf] at hvt
    exact Bool.noConfusion hvt
  | cons k rest ihl =>
    intro a b h v hvf hvt
    have h0 : sprIter sprF p (k :: rest) a =
        (match mget a k p with
         | .error e => .error e
         | .ok bb =>
           if bb = true ∧ k ≠ p then
             match sprF k a with
             | .error e => .error e
             | .ok m2 => sprIter sprF p rest m2
           else sprIter sprF p rest a) := rfl
    rw [h0] at h
    split at h
    · exact Except.noConfusion h
    · rename_i bb heqb
      split at h
      · split at h
        · exact Except.noConfusion h
        · rename_i m2 hm2
          by_cases hv2 : entryB m2 v t = true
          · exact goodCall_mono (hFprov k a m2 hm2 v hvf hv2) (mid_refl t a)
              (sprIter_mid t sprF p hFmid rest m2 b h)
          · exact goodCall_mono
              (ihl m2 b h v (bool_not_true hv2) hvt)
              (hFmid k a m2 hm2) (mid_refl t b)
      · exact ihl a b h v hvf hvt

/-- Provenance through a whole run: a column-`t` entry that flips from
`false` to `true` was written either by the root call itself or by some
recursive call inside it. -/
theorem spr_prov (t : Nat) : ∀ (f n p : Nat) (m r : BMat),
    setParentRecursively f n p t m = .ok r →
    ∀ v, entryB m v t = false → entryB r v t = true → GoodCall n t m r v := by
  intro f
  induction f with
  | zero => intro n p m r h; exact Except.noConfusion h
  | succ f ih =>
    intro n p m r h v hvf hvt
    have horig := h
    have h0 : setParentRecursively (f + 1) n p t m =
        (match mset m p t true with
         | .error e => .error e
         | .ok m1 =>
           sprIter (fun i acc => setParentRecursively f n i t acc) p
             (List.range n) m1) := rfl
    rw [h0] at h
    split at h
    · exact Except.noConfusion h
    · rename_i m1 hm1
      by_cases hv1 : entryB m1 v t = true
      · have hvp : v = p := by
          by_contra hne
          rw [entryB_mset_other m p t true m1 v t hm1 (Or.inl hne)] at hv1
          rw [hvf] at hv1
          exact Bool.noConfusion hv1
        subst hvp
        exact ⟨f + 1, m, r, horig, mid_refl t m, mid_refl t r⟩
      · exact goodCall_mono
          (sprIter_prov n t _ p (fun i a r2 hr2 => spr_mid t f n i a r2 hr2)
            (fun i a r2 hr2 => ih n i a r2 hr2)
            (List.range n) m1 r h v (bool_not_true hv1) hvt)
          (mid_mset m p t m1 hm1) (mid_refl t r)

/-- The step lemma: during a rerun over the final matrix `r` of a completed
run, every guard that fires at a node with a recorded call leads to a node
that also has a recorded call. -/
theorem good_step (n t : Nat) (m r : BMat) (F p : Nat)
    (htop : setParentRecursively F n p t m = .ok r)
    (x : Nat) (hgc : GoodCall n t m r x)
    (i : Nat) (hi : i < n) (hix : i ≠ x) (hie : entryB r i x = true) :
    GoodCall n t m r i := by
  obtain ⟨fx, c, r2, hcall, hmc, hr2⟩ := hgc
  cases fx with
  | zero => exact Except.noConfusion hcall
  | succ fx =>
    have h0 : setParentRecursively (fx + 1) n x t c =
        (match mset c x t true with
         | .error e => .error e
         | .ok c1 =>
           sprIter (fun i2 acc => setParentRecursively fx n i2 t acc) x
             (List.range n) c1) := rfl
    rw [h0] at hcall
    split at hcall
    · exact Except.noConfusion hcall
    · rename_i c1 hc1
      by_cases hxt : x = t
      · subst hxt
        by_cases hold : entryB m i x = true
        · have hci : entryB c1 i x = true := by
            rw [entryB_mset_other c x x true c1 i x hc1 (Or.inl hix)]
            exact mid_entry_true hmc i x hold
          obtain ⟨cc, rr, hccall, hmidc, hmidr⟩ :=
            sprIter_calls x _ x (fun i2 a r3 hr3 => spr_mid x fx n i2 a r3 hr3)
              (List.range n) c1 r2 hcall i (List.mem_range.mpr hi) hix hci
          exact ⟨fx, cc, rr, hccall,
                 mid_trans (mid_trans hmc (mid_mset c x x c1 hc1)) hmidc,
                 mid_trans hmidr hr2⟩
        · exact spr_prov x F n p m r htop i (bool_not_true hold) hie
      · have hci : entryB c1 i x = true := by
          have h2 : entryB c1 i x = entryB c i x := (mid_mset c x t c1 hc1).1 i x hxt
          have h1 : entryB c i x = entryB m i x := hmc.1 i x hxt
          have h3 : entryB r i x = entryB m i x := (spr_mid t F n p m r htop).1 i x hxt
          rw [h2, h1, ← h3]
          exact hie
        obtain ⟨cc, rr, hccall, hmidc, hmidr⟩ :=
          sprIter_calls t _ x (fun i2 a r3 hr3 => spr_mid t fx n i2 a r3 hr3)
            (List.range n) c1 r2 hcall i (List.mem_range.mpr hi) hix hci
        exact ⟨fx, cc, rr, hccall,
               mid_trans (mid_trans hmc (mid_mset c x t c1 hc1)) hmidc,
               mid_trans hmidr hr2⟩

/-- A rerun of the scan loop over the final matrix is the identity. -/
theorem spr_fix_iter (n t : Nat) (m r : BMat) (F p : Nat)
    (htop : setParentRecursively F n p t m = .ok r) (g : Nat)
    (ihg : ∀ x, GoodCall n t m r x →
      ∀ r2, setParentRecursively g n x t r = .ok r2 → r2 = r)
    (x : Nat) (hgc : GoodCall n t m r x) :
    ∀ (idxs : List Nat), (∀ i ∈ idxs, i < n) → ∀ r2,
      sprIter (fun i acc => setParentRecursively g n i t acc) x idxs r = .ok r2 →
      r2 = r := by
  intro idxs
  induction idxs with
  | nil =>
    intro _ r2 h
    have h0 : sprIter (fun i acc => setParentRecursively g n i t acc) x [] r =
        .ok r := rfl
    rw [h0] at h
    injection h with h
    exact h.symm
  | cons k rest ihl =>
    intro hidx r2 h
    have hk : k < n := hidx k (List.mem_cons_self k rest)
    have hkrest : ∀ i ∈ rest, i < n :=
      fun i hi2 => hidx i (List.mem_cons_of_mem k hi2)
    have h0 : sprIter (fun i acc => setParentRecursively g n i t acc) x
        (k :: rest) r =
        (match mget r k x with
         | .error e => .error e
         | .ok bb =>
           if bb = true ∧ k ≠ x then
             match setParentRecursively g n k t r with
             | .error e => .error e
             | .ok m2 =>
               sprIter (fun i acc => setParentRecursively g n i t acc) x rest m2
           else
             sprIter (fun i acc => setParentRecursively g n i t acc) x rest r) := rfl
    rw [h0] at h
    split at h
    · exact Except.noConfusion h
    · rename_i bb heqb
      split at h
      · rename_i hguard
        split at h
        · exact Except.noConfusion h
        · rename_i rk hrk
          have hek : entryB r k x = true := by
            rw [entryB_of_mget r k x bb heqb]
            exact hguard.1
          have hgck : GoodCall n t m r k :=
            good_step n t m r F p htop x hgc k hk hguard.2 hek
          have hrkr : rk = r := ihg k hgck rk hrk
          rw [hrkr] at h
          exact ihl hkrest r2 h
      · exact ihl hkrest r2 h

/-- Rerunning `setParentRecursively` from any node with a recorded call, on
the final matrix of a completed run, returns that matrix unchanged. -/
theorem spr_fix (n t : Nat) (m r : BMat) (F p : Nat)
    (htop : setParentRecursively F n p t m = .ok r) :
    ∀ (g x : Nat), GoodCall n t m r x →
      ∀ r2, setParentRecursively g n x t r = .ok r2 → r2 = r := by
  intro g
  induction g with
  | zero => intro x _ r2 h; exact Except.noConfusion h
  | succ g ih =>
    intro x hgc r2 h
    have hwr : entryB r x t = true := by
      obtain ⟨fx, c, rr2, hcall, hmc, hrr2⟩ := hgc
      exact mid_entry_true hrr2 x t (spr_first_write t fx n x c rr2 hcall)
    have h0 : setParentRecursively (g + 1) n x t r =
        (match mset r x t true with
         | .error e => .error e
         | .ok r1 =>
           sprIter (fun i acc => setParentRecursively g n i t acc) x
             (List.range n) r1) := rfl
    rw [h0] at h
    split at h
    · exact Except.noConfusion h
    · rename_i r1 hr1
      have hr1r : r1 = r := mset_noop r x t true r1 hr1 hwr
      rw [hr1r] at h
      exact spr_fix_iter n t m r F p htop g ih x hgc (List.range n)
        (fun i hi2 => List.mem_range.mp hi2) r2 h

/-- Rerunning the whole propagation `(p, t)` on its own result returns the
result unchanged. -/
theorem spr_idempotent (n t F p : Nat) (m r : BMat)
    (htop : setParentRecursively F n p t m = .ok r) (g : Nat) (r2 : BMat)
    (h : setParentRecursively g n p t r = .ok r2) : r2 = r :=
  spr_fix n t m r F p htop g p ⟨F, m, r, htop, mid_refl t m, mid_refl t r⟩ r2 h

/-- C3: `addType` is idempotent.  For every state and every `(parent, name)`
with `parent` a registered code, two consecutive completed calls of
`addType(parent, name)` return the same type code, and the second call
leaves the whole state — `nTypes`, both name maps, and both matrices —
unchanged: it only re-asserts entries that are already `true`.  (In this
fuel embedding a call that completes is exactly a call that returns `.ok`;
a hypothetical non-terminating call returns `.error .fuel` for every fuel
and is not a completed call.) -/
theorem addType_idempotent (f g : Nat) (s : ClassServerState) (parent : Nat)
    (name : String) (s1 s2 : ClassServerState) (t1 t2 : Nat)
    (sig1 sig2 : List Nat) (_hparent : parent < s.nTypes)
    (h1 : addType f s parent name = .ok (s1, t1, sig1))
    (h2 : addType g s1 parent name = .ok (s2, t2, sig2)) :
    t2 = t1 ∧ s2 = s1 := by
  cases hg : getType s name with
  | some t0 =>
    rw [addType_live f s parent name t0 hg] at h1
    split at h1
    · exact Except.noConfusion h1
    · rename_i ih1 hih1
      split at h1
      · exact Except.noConfusion h1
      · rename_i rm1 hrm1
        injection h1 with h1
        injection h1 with hs1 hrest1
        injection hrest1 with ht1 hsig1
        have hg2 : getType s1 name = some t0 := by
          rw [← hs1]
          exact hg
        rw [addType_live g s1 parent name t0 hg2] at h2
        split at h2
        · exact Except.noConfusion h2
        · rename_i ihb hihb
          split at h2
          · exact Except.noConfusion h2
          · rename_i rmb hrmb
            injection h2 with h2
            injection h2 with hs2 hrest2
            injection hrest2 with ht2 hsig2
            have hihbeq : ihb = s1.inheritanceMap := by
              apply mset_noop s1.inheritanceMap parent t0 true ihb hihb
              rw [← hs1]
              exact entryB_mset_self s.inheritanceMap parent t0 true ih1 hih1
            have hrmbeq : rmb = s1.recursiveMap := by
              rw [← hs1] at hrmb
              rw [← hs1]
              exact spr_idempotent s.nTypes t0 f parent s.recursiveMap rm1 hrm1 g rmb hrmb
            rw [← hs2, hihbeq, hrmbeq]
            constructor
            · rw [← ht2, ht1]
            · rfl
  | none =>
    rw [addType_fresh f s parent name hg] at h1
    split at h1
    · exact Except.noConfusion h1
    · rename_i ihA hihA
      split at h1
      · exact Except.noConfusion h1
      · rename_i ihB hihB
        split at h1
        · exact Except.noConfusion h1
        · rename_i rmA hrmA
          split at h1
          · exact Except.noConfusion h1
          · rename_i rmB hrmB
            injection h1 with h1
            injection h1 with hs1 hrest1
            injection hrest1 with ht1 hsig1
            have hg2 : getType s1 name = some s.nTypes := by
              rw [← hs1]
              show alookup ((name, s.nTypes) :: s.name2CodeMap) name = some s.nTypes
              unfold alookup
              rw [if_pos rfl]
            rw [addType_live g s1 parent name s.nTypes hg2] at h2
            split at h2
            · exact Except.noConfusion h2
            · rename_i ihb hihb
              split at h2
              · exact Except.noConfusion h2
              · rename_i rmb hrmb
                injection h2 with h2
                injection h2 with hs2 hrest2
                injection hrest2 with ht2 hsig2
                have hihbeq : ihb = s1.inheritanceMap := by
                  apply mset_noop s1.inheritanceMap parent s.nTypes true ihb hihb
                  rw [← hs1]
                  exact entryB_mset_self ihA parent s.nTypes true ihB hihB
                have hrmbeq : rmb = s1.recursiveMap := by
                  rw [← hs1] at hrmb
                  rw [← hs1]
                  exact spr_idempotent (s.nTypes + 1) s.nTypes f parent rmA rmB hrmB g rmb hrmb
                rw [← hs2, hihbeq, hrmbeq]
                constructor
                · rw [← ht2, ht1]
                · rfl

/-- Witness for C3: re-registering "A" under its own registered parent code
twice from `sampleState1`. -/
theorem addType_idempotent_witness :
    0 < sampleState1.nTypes ∧
    addType 10 sampleState1 0 "A" = .ok (sampleState1, 0, []) ∧
    ((0 : Nat) = 0 ∧ sampleState1 = sampleState1) := by
  exact ⟨by decide, by rfl,
    addType_idempotent 10 10 sampleState1 0 "A" sampleState1 sampleState1 0 0 [] []
      (by decide) (by rfl) (by rfl)⟩
